import Mathlib

/-!
# Verification of the `mandelbrot` renderer (`src/main.rs`)

Shallow embedding of the Rust program's core functions over exact rationals
(`ℚ` models the `f64` values; all arithmetic is exact) and over `List Char`
with explicit UTF-8 byte lengths (models Rust `&str` and its byte-indexed
slicing).  Machine-width quantities (`usize`, `u8`) are modelled by `Nat`
with explicit `% 256` where a `u8` cast occurs.
-/

namespace Mandelbrot

/-- Embeds `num::Complex<f64>`: a pair of (exact) real components. -/
structure Complex where
  re : ℚ
  im : ℚ
deriving DecidableEq, Repr

/-- Complex addition, as in the `num` crate. -/
instance : Add Complex :=
  ⟨fun a b => ⟨a.re + b.re, a.im + b.im⟩⟩

/-- Complex multiplication, as in the `num` crate. -/
instance : Mul Complex :=
  ⟨fun a b => ⟨a.re * b.re - a.im * b.im, a.re * b.im + a.im * b.re⟩⟩

/-- Models `Complex::norm_sqr` from the `num` crate: `re*re + im*im`. -/
def Complex.norm_sqr (z : Complex) : ℚ :=
  z.re * z.re + z.im * z.im

theorem Complex.add_def (a b : Complex) :
    a + b = ⟨a.re + b.re, a.im + b.im⟩ := rfl

theorem Complex.mul_def (a b : Complex) :
    a * b = ⟨a.re * b.re - a.im * b.im, a.re * b.im + a.im * b.re⟩ := rfl

/-- Models `fn lerp(a, b, t)` (src/main.rs): `a * (1.0 - t) + b * t`. -/
def lerp (a b t : ℚ) : ℚ :=
  a * (1 - t) + b * t

/-- Models `fn pixel_to_point(bounds, pixel, upper_left, lower_right)` (src/main.rs):
`bounds` is `(width, height)`, `pixel` is `(column, row)`; each axis is the
lerp of the corner coordinates at fraction `pixel / bounds` (float division,
after converting the integers to floats). -/
def pixel_to_point (bounds pixel : Nat × Nat)
    (upper_left lower_right : Complex) : Complex :=
  ⟨lerp upper_left.re lower_right.re ((pixel.1 : ℚ) / (bounds.1 : ℚ)),
   lerp upper_left.im lower_right.im ((pixel.2 : ℚ) / (bounds.2 : ℚ))⟩

/-- The orbit of `z` under `z ↦ z*z + c` starting from `(0.0, 0.0)`:
`zOrbit c i` is the value of the loop variable `z` of `escape_time` at the
start of iteration `i`. -/
def zOrbit (c : Complex) : Nat → Complex
  | 0 => ⟨0, 0⟩
  | n + 1 => zOrbit c n * zOrbit c n + c

/-- The `for i in 0..limit` loop body of `escape_time` (src/main.rs):
`z` is the current state, `i` the current index, and the third argument the
number of iterations still to run. -/
def escapeAux (c : Complex) : Complex → Nat → Nat → Option Nat
  | _, _, 0 => none
  | z, i, fuel + 1 =>
    if 4 < z.norm_sqr then some i
    else escapeAux c (z * z + c) (i + 1) fuel

/-- Models `fn escape_time(c, limit)` (src/main.rs): start from `z = (0.0, 0.0)`,
run the loop for indices `0..limit`, return `Some i` on escape and `None`
("no escape time (assumed infinite)") if the loop finishes. -/
def escape_time (c : Complex) (limit : Nat) : Option Nat :=
  escapeAux c ⟨0, 0⟩ 0 limit

/-- The value stored by `render` for one pixel (src/main.rs):
`match escape_time(point, 255) { None => 0, Some(count) => 255 - count as u8 }`.
The `count as u8` cast is `count % 256`; the `u8` subtraction `255 - (count % 256)`
cannot wrap below zero, so `Nat` subtraction models it exactly. -/
def renderPixel (bounds pixel : Nat × Nat) (upper_left lower_right : Complex) : Nat :=
  match escape_time (pixel_to_point bounds pixel upper_left lower_right) 255 with
  | none => 0
  | some count => 255 - count % 256

/-- The inner `for x in 0..bounds.0` loop of `render` for row `y`: writes
`pixels[y * bounds.0 + x]` for each column `x`. -/
def rowUpdate (w h : Nat) (upper_left lower_right : Complex) (y : Nat)
    (buf : List Nat) : List Nat :=
  (List.range w).foldl
    (fun b x => b.set (y * w + x) (renderPixel (w, h) (x, y) upper_left lower_right)) buf

/-- Models `fn render(pixels, bounds, upper_left, lower_right)` (src/main.rs).
The `assert!(pixels.len() == bounds.0 * bounds.1)` is modelled by returning
`none` (assertion failure / panic) when the length check fails, and
`some finalBuffer` otherwise; the nested `for y { for x { ... } }` loops are
the folds over `List.range`. -/
def render (pixels : List Nat) (bounds : Nat × Nat)
    (upper_left lower_right : Complex) : Option (List Nat) :=
  match bounds with
  | (w, h) =>
    if pixels.length = w * h then
      some ((List.range h).foldl (fun b y => rowUpdate w h upper_left lower_right y b) pixels)
    else
      none

/-! ## String / parsing model

Rust `&str` is modelled as `List Char`; byte positions are made explicit via
the UTF-8 encoded length of each character, so that `str::find` (which
returns a byte index) and byte-range slicing (which panics on a non-boundary
index) are modelled faithfully. -/

/-- Number of bytes of the UTF-8 encoding of a character. -/
def utf8Len (c : Char) : Nat :=
  if c.toNat < 0x80 then 1
  else if c.toNat < 0x800 then 2
  else if c.toNat < 0x10000 then 3
  else 4

/-- Byte length of a string (`str::len`). -/
def byteLen (s : List Char) : Nat :=
  (s.map utf8Len).sum

/-- Models `s.find(separator)` for a `char` pattern: byte index of the first
occurrence of `separator`, or `None`. -/
def findSep : List Char → Char → Option Nat
  | [], _ => none
  | c :: cs, sep =>
    if c = sep then some 0
    else (findSep cs sep).map (fun i => utf8Len c + i)

/-- The slice `&s[..n]` for a byte index `n`: `some` prefix when `n` is a
character boundary within the string, `none` (panic) otherwise. -/
def byteTake : List Char → Nat → Option (List Char)
  | _, 0 => some []
  | [], _ + 1 => none
  | c :: cs, n + 1 =>
    if utf8Len c ≤ n + 1 then (byteTake cs (n + 1 - utf8Len c)).map (c :: ·)
    else none

/-- The slice `&s[n..]` for a byte index `n`: `some` suffix when `n` is a
character boundary of the string, `none` (panic) otherwise. -/
def byteDrop : List Char → Nat → Option (List Char)
  | s, 0 => some s
  | [], _ + 1 => none
  | c :: cs, n + 1 =>
    if utf8Len c ≤ n + 1 then byteDrop cs (n + 1 - utf8Len c)
    else none

/-- Models `fn parse_pair<T: FromStr>(s, separator)` (src/main.rs), generic over the
target type via its parser `fromStr` (models `T::from_str`).  The outer
`Option` is `none` exactly when a slice index falls on a non-boundary (a
panic in Rust); the inner `Option` is the function's own result:
`s.find(separator)` absent gives `None`, otherwise both halves must parse. -/
def parse_pair {T : Type} (fromStr : List Char → Option T)
    (s : List Char) (separator : Char) : Option (Option (T × T)) :=
  match findSep s separator with
  | none => some none
  | some index =>
    match byteTake s index, byteDrop s (index + 1) with
    | some left, some right =>
      some (match fromStr left, fromStr right with
            | some l, some r => some (l, r)
            | _, _ => none)
    | _, _ => none

/-- A concrete instance of a `FromStr`-style parser, used to instantiate the
generic `parse_pair` theorems on concrete inputs: parses a nonempty all-digit
string as a natural number and rejects everything else (in particular any
trailing garbage). -/
def digitsToNat (s : List Char) : Option Nat :=
  if s ≠ [] ∧ s.all (fun c => c.isDigit) then
    some (s.foldl (fun n c => 10 * n + (c.toNat - 48)) 0)
  else none

/-! ## Characterization of `escape_time` -/

theorem zOrbit_succ (c : Complex) (n : Nat) :
    zOrbit c (n + 1) = zOrbit c n * zOrbit c n + c := rfl

theorem escapeAux_succ (c z : Complex) (i fuel : Nat) :
    escapeAux c z i (fuel + 1) =
      if 4 < z.norm_sqr then some i else escapeAux c (z * z + c) (i + 1) fuel := rfl

theorem escapeAux_some_iff (c : Complex) :
    ∀ fuel i k : Nat,
      escapeAux c (zOrbit c i) i fuel = some k ↔
        (i ≤ k ∧ k < i + fuel ∧ 4 < (zOrbit c k).norm_sqr ∧
          ∀ j, i ≤ j → j < k → (zOrbit c j).norm_sqr ≤ 4) := by
  intro fuel
  induction fuel with
  | zero =>
    intro i k
    constructor
    · intro h; cases h
    · rintro ⟨h1, h2, -⟩; exfalso; omega
  | succ fuel ih =>
    intro i k
    rw [escapeAux_succ]
    by_cases h4 : 4 < (zOrbit c i).norm_sqr
    · rw [if_pos h4]
      constructor
      · intro h
        obtain rfl : i = k := by injection h
        exact ⟨le_refl i, by omega, h4, fun j hij hji => by omega⟩
      · rintro ⟨hik, -, -, hall⟩
        rcases Nat.eq_or_lt_of_le hik with rfl | hlt
        · rfl
        · exact absurd h4 (not_lt.mpr (hall i (le_refl i) hlt))
    · rw [if_neg h4, ← zOrbit_succ, ih (i + 1) k]
      constructor
      · rintro ⟨h1, h2, h3, h5⟩
        refine ⟨by omega, by omega, h3, ?_⟩
        intro j hij hjk
        rcases Nat.eq_or_lt_of_le hij with rfl | hj
        · exact not_lt.mp h4
        · exact h5 j hj hjk
      · rintro ⟨h1, h2, h3, h5⟩
        have hik : i ≠ k := by rintro rfl; exact h4 h3
        exact ⟨by omega, by omega, h3, fun j hj1 hj2 => h5 j (by omega) hj2⟩

theorem escapeAux_none_iff (c : Complex) :
    ∀ fuel i : Nat,
      escapeAux c (zOrbit c i) i fuel = none ↔
        ∀ j, i ≤ j → j < i + fuel → (zOrbit c j).norm_sqr ≤ 4 := by
  intro fuel
  induction fuel with
  | zero =>
    intro i
    constructor
    · intro _ j h1 h2; exfalso; omega
    · intro _; rfl
  | succ fuel ih =>
    intro i
    rw [escapeAux_succ]
    by_cases h4 : 4 < (zOrbit c i).norm_sqr
    · rw [if_pos h4]
      constructor
      · intro h; cases h
      · intro hall
        exact absurd h4 (not_lt.mpr (hall i (le_refl i) (by omega)))
    · rw [if_neg h4, ← zOrbit_succ, ih (i + 1)]
      constructor
      · intro hall j h1 h2
        rcases Nat.eq_or_lt_of_le h1 with rfl | hj
        · exact not_lt.mp h4
        · exact hall j hj (by omega)
      · intro hall j h1 h2
        exact hall j (by omega) (by omega)

theorem escape_time_some_iff (c : Complex) (limit k : Nat) :
    escape_time c limit = some k ↔
      (k < limit ∧ 4 < (zOrbit c k).norm_sqr ∧
        ∀ j, j < k → (zOrbit c j).norm_sqr ≤ 4) := by
  have h0 : (⟨0, 0⟩ : Complex) = zOrbit c 0 := rfl
  rw [escape_time, h0, escapeAux_some_iff c limit 0 k]
  constructor
  · rintro ⟨-, h2, h3, h4⟩
    exact ⟨by omega, h3, fun j hj => h4 j (Nat.zero_le j) hj⟩
  · rintro ⟨h1, h2, h3⟩
    exact ⟨Nat.zero_le k, by omega, h2, fun j _ hj => h3 j hj⟩

theorem escape_time_none_iff (c : Complex) (limit : Nat) :
    escape_time c limit = none ↔
      ∀ j, j < limit → (zOrbit c j).norm_sqr ≤ 4 := by
  have h0 : (⟨0, 0⟩ : Complex) = zOrbit c 0 := rfl
  rw [escape_time, h0, escapeAux_none_iff c limit 0]
  constructor
  · intro h j hj; exact h j (Nat.zero_le j) (by omega)
  · intro h j _ hj; exact h j (by omega)

/-- Raising the limit preserves an escape result (shared helper). -/
theorem escape_time_grow (c : Complex) {l1 l2 i : Nat} (h : l1 ≤ l2)
    (hi : escape_time c l1 = some i) : escape_time c l2 = some i := by
  rw [escape_time_some_iff] at hi ⊢
  exact ⟨by omega, hi.2.1, hi.2.2⟩

/-! ## The render loops as writes into the buffer -/

theorem foldl_set_length (g f : Nat → Nat) (l : List Nat) :
    ∀ buf : List Nat, (l.foldl (fun b k => b.set (f k) (g k)) buf).length = buf.length := by
  induction l with
  | nil => intro buf; rfl
  | cons a t ih => intro buf; rw [List.foldl_cons, ih, List.length_set]

theorem foldl_set_getElem?_ne (g f : Nat → Nat) (i : Nat) (l : List Nat) :
    ∀ buf : List Nat, (∀ k ∈ l, f k ≠ i) →
      (l.foldl (fun b k => b.set (f k) (g k)) buf)[i]? = buf[i]? := by
  induction l with
  | nil => intro buf _; rfl
  | cons a t ih =>
    intro buf hne
    rw [List.foldl_cons, ih _ (fun k hk => hne k (List.mem_cons_of_mem a hk)),
      List.getElem?_set_ne (hne a (List.mem_cons_self a t))]

theorem foldl_set_getElem?_eq (g f : Nat → Nat) (l : List Nat) :
    ∀ (buf : List Nat) (k : Nat), k ∈ l → l.Nodup →
      (∀ k' ∈ l, f k' = f k → k' = k) → f k < buf.length →
      (l.foldl (fun b k => b.set (f k) (g k)) buf)[f k]? = some (g k) := by
  induction l with
  | nil => intro buf k hk; exact absurd hk (List.not_mem_nil k)
  | cons a t ih =>
    intro buf k hk hnd hinj hlt
    rw [List.foldl_cons]
    by_cases hak : a = k
    · subst hak
      have ht : ∀ k' ∈ t, f k' ≠ f a := by
        intro k' hk' he
        have hka : k' = a := hinj k' (List.mem_cons_of_mem a hk') he
        exact (List.nodup_cons.mp hnd).1 (hka ▸ hk')
      rw [foldl_set_getElem?_ne g f (f a) t _ ht]
      exact List.getElem?_set_self hlt
    · have hkt : k ∈ t := by
        rcases List.mem_cons.mp hk with h | h
        · exact absurd h.symm hak
        · exact h
      refine ih _ k hkt (List.nodup_cons.mp hnd).2
        (fun k' hk' he => hinj k' (List.mem_cons_of_mem a hk') he) ?_
      rw [List.length_set]; exact hlt

/-- Distinct rows and columns write to distinct buffer indices. -/
theorem rowIndex_inj (w x x' y y' : Nat) (hx : x < w) (hx' : x' < w)
    (h : y' * w + x' = y * w + x) : y' = y ∧ x' = x := by
  have hy : y' = y := by
    rcases Nat.lt_trichotomy y' y with hlt | heq | hgt
    · exfalso
      have h1 : y' * w + x' < (y' + 1) * w := by rw [Nat.succ_mul]; omega
      have h2 : (y' + 1) * w ≤ y * w := Nat.mul_le_mul_right w hlt
      omega
    · exact heq
    · exfalso
      have h1 : y * w + x < (y + 1) * w := by rw [Nat.succ_mul]; omega
      have h2 : (y + 1) * w ≤ y' * w := Nat.mul_le_mul_right w hgt
      omega
  subst hy
  omega

/-- A pixel's flat index is inside a `w * h` buffer. -/
theorem pixelIndex_lt (w h x y : Nat) (hx : x < w) (hy : y < h) :
    y * w + x < w * h := by
  have h1 : y * w + x < (y + 1) * w := by rw [Nat.succ_mul]; omega
  have h2 : (y + 1) * w ≤ h * w := Nat.mul_le_mul_right w hy
  rw [Nat.mul_comm w h]; omega

theorem rowUpdate_length (w h y : Nat) (ul lr : Complex) (buf : List Nat) :
    (rowUpdate w h ul lr y buf).length = buf.length :=
  foldl_set_length (fun x => renderPixel (w, h) (x, y) ul lr) (fun x => y * w + x)
    (List.range w) buf

theorem rowUpdate_getElem?_ne (w h y i : Nat) (ul lr : Complex) (buf : List Nat)
    (hne : ∀ x, x < w → y * w + x ≠ i) :
    (rowUpdate w h ul lr y buf)[i]? = buf[i]? :=
  foldl_set_getElem?_ne (fun x => renderPixel (w, h) (x, y) ul lr) (fun x => y * w + x)
    i (List.range w) buf (fun k hk => hne k (List.mem_range.mp hk))

theorem rowUpdate_getElem?_eq (w h x y : Nat) (ul lr : Complex) (buf : List Nat)
    (hx : x < w) (hlt : y * w + x < buf.length) :
    (rowUpdate w h ul lr y buf)[y * w + x]? =
      some (renderPixel (w, h) (x, y) ul lr) :=
  foldl_set_getElem?_eq (fun x => renderPixel (w, h) (x, y) ul lr) (fun x => y * w + x)
    (List.range w) buf x (List.mem_range.mpr hx) (List.nodup_range w)
    (fun k' _ he => by
      have h2 : y * w + k' = y * w + x := he
      omega) hlt

theorem rowsFold_length (w h : Nat) (ul lr : Complex) (l : List Nat) :
    ∀ buf : List Nat,
      (l.foldl (fun b y => rowUpdate w h ul lr y b) buf).length = buf.length := by
  induction l with
  | nil => intro buf; rfl
  | cons a t ih => intro buf; rw [List.foldl_cons, ih, rowUpdate_length]

theorem rowsFold_getElem?_ne (w h i : Nat) (ul lr : Complex) (l : List Nat) :
    ∀ buf : List Nat, (∀ y' ∈ l, ∀ x', x' < w → y' * w + x' ≠ i) →
      (l.foldl (fun b y => rowUpdate w h ul lr y b) buf)[i]? = buf[i]? := by
  induction l with
  | nil => intro buf _; rfl
  | cons a t ih =>
    intro buf hne
    rw [List.foldl_cons, ih _ (fun y' hy' => hne y' (List.mem_cons_of_mem a hy')),
      rowUpdate_getElem?_ne w h a i ul lr buf (hne a (List.mem_cons_self a t))]

theorem rowsFold_getElem?_eq (w h x y : Nat) (ul lr : Complex) (hx : x < w)
    (l : List Nat) :
    ∀ buf : List Nat, y ∈ l → l.Nodup → y * w + x < buf.length →
      (l.foldl (fun b y' => rowUpdate w h ul lr y' b) buf)[y * w + x]? =
        some (renderPixel (w, h) (x, y) ul lr) := by
  induction l with
  | nil => intro buf hk; exact absurd hk (List.not_mem_nil y)
  | cons a t ih =>
    intro buf hk hnd hlt
    rw [List.foldl_cons]
    by_cases hak : a = y
    · subst hak
      have ht : ∀ y' ∈ t, ∀ x', x' < w → y' * w + x' ≠ a * w + x := by
        intro y' hy' x' hx' he
        have hya : y' = a := (rowIndex_inj w x x' a y' hx hx' he).1
        exact (List.nodup_cons.mp hnd).1 (hya ▸ hy')
      rw [rowsFold_getElem?_ne w h (a * w + x) ul lr t _ ht]
      exact rowUpdate_getElem?_eq w h x a ul lr buf hx hlt
    · have hkt : y ∈ t := by
        rcases List.mem_cons.mp hk with h' | h'
        · exact absurd h'.symm hak
        · exact h'
      refine ih _ hkt (List.nodup_cons.mp hnd).2 ?_
      rw [rowUpdate_length]; exact hlt

theorem render_of_length_eq (w h : Nat) (ul lr : Complex) (buf : List Nat)
    (hlen : buf.length = w * h) :
    render buf (w, h) ul lr =
      some ((List.range h).foldl (fun b y => rowUpdate w h ul lr y b) buf) := by
  simp [render, hlen]

theorem render_of_length_ne (w h : Nat) (ul lr : Complex) (buf : List Nat)
    (hlen : buf.length ≠ w * h) :
    render buf (w, h) ul lr = none := by
  simp [render, hlen]

theorem render_some_inv (w h : Nat) (ul lr : Complex) (buf out : List Nat)
    (hr : render buf (w, h) ul lr = some out) :
    buf.length = w * h ∧
      out = (List.range h).foldl (fun b y => rowUpdate w h ul lr y b) buf := by
  by_cases hlen : buf.length = w * h
  · rw [render_of_length_eq w h ul lr buf hlen] at hr
    exact ⟨hlen, (Option.some.injEq _ _ ▸ hr).symm⟩
  · rw [render_of_length_ne w h ul lr buf hlen] at hr
    cases hr

theorem render_out_length (w h : Nat) (ul lr : Complex) (buf out : List Nat)
    (hr : render buf (w, h) ul lr = some out) : out.length = w * h := by
  obtain ⟨hlen, rfl⟩ := render_some_inv w h ul lr buf out hr
  rw [rowsFold_length]; exact hlen

theorem render_out_getElem? (w h x y : Nat) (ul lr : Complex) (buf out : List Nat)
    (hr : render buf (w, h) ul lr = some out) (hx : x < w) (hy : y < h) :
    out[y * w + x]? = some (renderPixel (w, h) (x, y) ul lr) := by
  obtain ⟨hlen, rfl⟩ := render_some_inv w h ul lr buf out hr
  exact rowsFold_getElem?_eq w h x y ul lr hx (List.range h) buf
    (List.mem_range.mpr hy) (List.nodup_range h)
    (hlen ▸ pixelIndex_lt w h x y hx hy)

/-! ## Parsing lemmas -/

theorem utf8Len_pos (c : Char) : 1 ≤ utf8Len c := by
  unfold utf8Len
  split
  · omega
  split
  · omega
  split <;> omega

theorem utf8Len_ascii (c : Char) (h : c.toNat < 128) : utf8Len c = 1 := by
  unfold utf8Len
  rw [if_pos]
  omega

theorem byteLen_append (a b : List Char) :
    byteLen (a ++ b) = byteLen a + byteLen b := by
  unfold byteLen
  rw [List.map_append, List.sum_append]

theorem byteLen_cons (c : Char) (t : List Char) :
    byteLen (c :: t) = utf8Len c + byteLen t := by
  unfold byteLen
  rw [List.map_cons, List.sum_cons]

theorem findSep_eq_none (sep : Char) (s : List Char) (h : sep ∉ s) :
    findSep s sep = none := by
  induction s with
  | nil => rfl
  | cons c t ih =>
    have hc : ¬c = sep := fun hc => h (hc ▸ List.mem_cons_self c t)
    rw [show findSep (c :: t) sep
        = if c = sep then some 0 else (findSep t sep).map (fun i => utf8Len c + i)
      from rfl, if_neg hc, ih (fun ht => h (List.mem_cons_of_mem c ht))]
    rfl

theorem findSep_append (sep : Char) (l rest : List Char) (hl : sep ∉ l) :
    findSep (l ++ sep :: rest) sep = some (byteLen l) := by
  induction l with
  | nil =>
    rw [List.nil_append,
      show findSep (sep :: rest) sep
          = if sep = sep then some 0 else (findSep rest sep).map (fun i => utf8Len sep + i)
        from rfl,
      if_pos rfl]
    rfl
  | cons c t ih =>
    have hc : ¬c = sep := fun hc => hl (hc ▸ List.mem_cons_self c t)
    rw [List.cons_append,
      show findSep (c :: (t ++ sep :: rest)) sep
          = if c = sep then some 0
            else (findSep (t ++ sep :: rest) sep).map (fun i => utf8Len c + i)
        from rfl,
      if_neg hc, ih (fun ht => hl (List.mem_cons_of_mem c ht)), byteLen_cons]
    rfl

theorem findSep_some_decomp (sep : Char) (s : List Char) (idx : Nat)
    (h : findSep s sep = some idx) :
    ∃ l rest, s = l ++ sep :: rest ∧ sep ∉ l ∧ idx = byteLen l := by
  induction s generalizing idx with
  | nil => cases h
  | cons c t ih =>
    rw [show findSep (c :: t) sep
        = if c = sep then some 0 else (findSep t sep).map (fun i => utf8Len c + i)
      from rfl] at h
    by_cases hc : c = sep
    · rw [if_pos hc] at h
      obtain rfl : (0 : Nat) = idx := by injection h
      exact ⟨[], t, by rw [hc]; rfl, List.not_mem_nil sep, rfl⟩
    · rw [if_neg hc] at h
      rcases ho : findSep t sep with - | i
      · rw [ho] at h; cases h
      · rw [ho] at h
        obtain rfl : utf8Len c + i = idx := by
          simpa [Option.map] using h
        obtain ⟨l, rest, ht, hnl, hi⟩ := ih i ho
        refine ⟨c :: l, rest, by rw [ht]; rfl, ?_, ?_⟩
        · intro hm
          rcases List.mem_cons.mp hm with h' | h'
          · exact hc h'.symm
          · exact hnl h'
        · rw [byteLen_cons, hi]

theorem byteTake_zero (s : List Char) : byteTake s 0 = some [] := by
  cases s <;> rfl

theorem byteDrop_zero (s : List Char) : byteDrop s 0 = some s := by
  cases s <;> rfl

theorem byteTake_append (l r : List Char) :
    byteTake (l ++ r) (byteLen l) = some l := by
  induction l with
  | nil =>
    rw [List.nil_append, show byteLen ([] : List Char) = 0 from rfl]
    exact byteTake_zero r
  | cons c t ih =>
    rw [byteLen_cons]
    have hc : 1 ≤ utf8Len c := utf8Len_pos c
    obtain ⟨m, hm⟩ : ∃ m, utf8Len c + byteLen t = m + 1 :=
      ⟨utf8Len c + byteLen t - 1, by omega⟩
    rw [hm, List.cons_append,
      show byteTake (c :: (t ++ r)) (m + 1)
          = if utf8Len c ≤ m + 1 then (byteTake (t ++ r) (m + 1 - utf8Len c)).map (c :: ·)
            else none
        from rfl,
      if_pos (by omega), show m + 1 - utf8Len c = byteLen t from by omega, ih]
    rfl

theorem byteDrop_cons_ascii (c : Char) (t : List Char) (hc : utf8Len c = 1) :
    byteDrop (c :: t) 1 = some t := by
  rw [show byteDrop (c :: t) 1
      = if utf8Len c ≤ 1 then byteDrop t (1 - utf8Len c) else none
    from rfl, if_pos (by omega), hc]
  exact byteDrop_zero t

theorem byteDrop_append (l rest : List Char) (sep : Char) (hsep : utf8Len sep = 1) :
    byteDrop (l ++ sep :: rest) (byteLen l + 1) = some rest := by
  induction l with
  | nil =>
    rw [List.nil_append, show byteLen ([] : List Char) + 1 = 1 from rfl]
    exact byteDrop_cons_ascii sep rest hsep
  | cons c t ih =>
    rw [byteLen_cons]
    have hc : 1 ≤ utf8Len c := utf8Len_pos c
    obtain ⟨m, hm⟩ : ∃ m, utf8Len c + byteLen t + 1 = m + 1 :=
      ⟨utf8Len c + byteLen t, by omega⟩
    rw [hm, List.cons_append,
      show byteDrop (c :: (t ++ sep :: rest)) (m + 1)
          = if utf8Len c ≤ m + 1 then byteDrop (t ++ sep :: rest) (m + 1 - utf8Len c)
            else none
        from rfl,
      if_pos (by omega), show m + 1 - utf8Len c = byteLen t + 1 from by omega, ih]

theorem parse_pair_of_not_mem {T : Type} (fromStr : List Char → Option T)
    (s : List Char) (sep : Char) (h : sep ∉ s) :
    parse_pair fromStr s sep = some none := by
  simp [parse_pair, findSep_eq_none sep s h]

theorem parse_pair_split {T : Type} (fromStr : List Char → Option T)
    (l rest : List Char) (sep : Char) (hsep : utf8Len sep = 1) (hl : sep ∉ l) :
    parse_pair fromStr (l ++ sep :: rest) sep =
      some (match fromStr l, fromStr rest with
            | some a, some b => some (a, b)
            | _, _ => none) := by
  simp [parse_pair, findSep_append sep l rest hl,
    byteTake_append l (sep :: rest), byteDrop_append l rest sep hsep]

/-! ## Claim theorems -/

/-- C1: for every complex point `c` and positive `limit`, `escape_time c limit`
iterates `z` from `(0.0, 0.0)` (the orbit `zOrbit c`, whose step is
`z = z*z + c`), checks `|z|^2 > 4.0` before each update, returns `some i`
exactly when `i < limit` is the first iteration index at which the check holds
at the start of the iteration, and returns `none` exactly when the check never
holds during all `limit` iterations. -/
theorem escape_time_first_escape (c : Complex) (limit : Nat) (hpos : 0 < limit) :
    (∀ i, escape_time c limit = some i ↔
      (i < limit ∧ 4 < (zOrbit c i).norm_sqr ∧
        ∀ j, j < i → (zOrbit c j).norm_sqr ≤ 4)) ∧
    (escape_time c limit = none ↔
      ∀ j, j < limit → (zOrbit c j).norm_sqr ≤ 4) :=
  ⟨fun i => escape_time_some_iff c limit i, escape_time_none_iff c limit⟩

/-- Witness for C1 at `c = 3 + 0i`, `limit = 2`: the escape is at index 1. -/
theorem escape_time_first_escape_witness :
    escape_time ⟨3, 0⟩ 2 = some 1 ↔
      (1 < 2 ∧ 4 < (zOrbit ⟨3, 0⟩ 1).norm_sqr ∧
        ∀ j, j < 1 → (zOrbit ⟨3, 0⟩ j).norm_sqr ≤ 4) :=
  (escape_time_first_escape ⟨3, 0⟩ 2 (by decide)).1 1

/-- C6: for every positive limit, `escape_time` at `c = (0.0, 0.0)` returns
`none`: the iteration state stays at `0` and the check `|z|^2 > 4.0` never
holds. -/
theorem escape_time_origin (limit : Nat) (hpos : 0 < limit) :
    escape_time ⟨0, 0⟩ limit = none ∧
    ∀ j, zOrbit ⟨0, 0⟩ j = ⟨0, 0⟩ ∧ ¬4 < (zOrbit ⟨0, 0⟩ j).norm_sqr := by
  have hz : ∀ j, zOrbit (⟨0, 0⟩ : Complex) j = ⟨0, 0⟩ := by
    intro j
    induction j with
    | zero => rfl
    | succ n ih =>
      rw [zOrbit_succ, ih]
      norm_num [Complex.mul_def, Complex.add_def]
  have hb : ∀ j, ¬4 < (zOrbit (⟨0, 0⟩ : Complex) j).norm_sqr := by
    intro j
    rw [hz j]
    norm_num [Complex.norm_sqr]
  refine ⟨?_, fun j => ⟨hz j, hb j⟩⟩
  rw [escape_time_none_iff]
  exact fun j _ => not_lt.mp (hb j)

/-- Witness for C6 at `limit = 3`. -/
theorem escape_time_origin_witness :
    0 < 3 ∧ escape_time ⟨0, 0⟩ 3 = none :=
  ⟨by decide, (escape_time_origin 3 (by decide)).1⟩

/-- C9: `escape_time` is monotone in the limit: an escape result `some i` at
limit `l1` is preserved at any larger limit `l2`, and a `none` at `l1` can
only turn into `some i` with `l1 ≤ i < l2`. -/
theorem escape_time_limit_mono (c : Complex) (l1 l2 : Nat) (h : l1 ≤ l2) :
    (∀ i, escape_time c l1 = some i → escape_time c l2 = some i) ∧
    (∀ i, escape_time c l1 = none → escape_time c l2 = some i →
      l1 ≤ i ∧ i < l2) := by
  constructor
  · intro i hi
    exact escape_time_grow c h hi
  · intro i hn hs
    rw [escape_time_none_iff] at hn
    rw [escape_time_some_iff] at hs
    refine ⟨?_, hs.1⟩
    by_contra hlt
    push_neg at hlt
    exact absurd hs.2.1 (not_lt.mpr (hn i hlt))

/-- Witness for C9 at `c = 3 + 0i`, `l1 = 2 ≤ l2 = 3`: the count 1 is kept. -/
theorem escape_time_limit_mono_witness :
    escape_time ⟨3, 0⟩ 3 = some 1 :=
  (escape_time_limit_mono ⟨3, 0⟩ 2 3 (by decide)).1 1
    (by norm_num [escape_time, escapeAux, Complex.norm_sqr,
      Complex.mul_def, Complex.add_def])

/-- C3: for every (positive) bounds and arbitrary corner points,
`pixel_to_point` at pixel `(0, 0)` returns exactly `upper_left`. -/
theorem pixel_to_point_zero (w h : Nat) (hw : 0 < w) (hh : 0 < h)
    (upper_left lower_right : Complex) :
    pixel_to_point (w, h) (0, 0) upper_left lower_right = upper_left := by
  simp [pixel_to_point, lerp]

/-- Witness for C3 at bounds `(2, 3)` and concrete corners. -/
theorem pixel_to_point_zero_witness :
    pixel_to_point (2, 3) (0, 0) ⟨1/2, -3⟩ ⟨5, 7⟩ = ⟨1/2, -3⟩ :=
  pixel_to_point_zero 2 3 (by decide) (by decide) ⟨1/2, -3⟩ ⟨5, 7⟩

/-- C5: for all values `a`, `b` (reals modelled exactly), `lerp a b 0 = a`,
`lerp a b 1 = b`, and `lerp a b (1/2) = (a + b) / 2`. -/
theorem lerp_endpoints (a b : ℚ) :
    lerp a b 0 = a ∧ lerp a b 1 = b ∧ lerp a b (1/2) = (a + b) / 2 := by
  refine ⟨?_, ?_, ?_⟩ <;> (unfold lerp; ring)

/-- C2: when `render` succeeds, the buffer cell at `y*width + x` holds `0` on
no-escape and `255 - count` otherwise, where the count returned by
`escape_time(point, 255)` is at most `254`, so the stored value lies in
`[1, 255]` and the `u8` subtraction never wraps. -/
theorem render_pixel_value (w h x y : Nat) (upper_left lower_right : Complex)
    (buf out : List Nat)
    (hr : render buf (w, h) upper_left lower_right = some out)
    (hx : x < w) (hy : y < h) :
    out[y * w + x]? = some (renderPixel (w, h) (x, y) upper_left lower_right) ∧
    (escape_time (pixel_to_point (w, h) (x, y) upper_left lower_right) 255 = none →
      renderPixel (w, h) (x, y) upper_left lower_right = 0) ∧
    (∀ count,
      escape_time (pixel_to_point (w, h) (x, y) upper_left lower_right) 255
          = some count →
      count ≤ 254 ∧
      renderPixel (w, h) (x, y) upper_left lower_right = 255 - count ∧
      1 ≤ 255 - count ∧ 255 - count ≤ 255) := by
  refine ⟨render_out_getElem? w h x y upper_left lower_right buf out hr hx hy, ?_, ?_⟩
  · intro hn
    unfold renderPixel
    rw [hn]
  · intro count hc
    have hlt : count < 255 := ((escape_time_some_iff _ 255 count).mp hc).1
    have hmod : count % 256 = count := Nat.mod_eq_of_lt (by omega)
    refine ⟨by omega, ?_, by omega, by omega⟩
    unfold renderPixel
    rw [hc]
    show 255 - count % 256 = 255 - count
    rw [hmod]

/-- Witness for C2: a 1×1 render at the escaping point `3 + 0i` stores
`255 - 1 = 254`. -/
theorem render_pixel_value_witness :
    render [7] (1, 1) ⟨3, 0⟩ ⟨3, 0⟩ = some [254] ∧
    ([254] : List Nat)[0 * 1 + 0]? = some (renderPixel (1, 1) (0, 0) ⟨3, 0⟩ ⟨3, 0⟩) := by
  have e2 : escape_time ⟨3, 0⟩ 2 = some 1 := by
    norm_num [escape_time, escapeAux, Complex.norm_sqr, Complex.mul_def, Complex.add_def]
  have e255 : escape_time ⟨3, 0⟩ 255 = some 1 := escape_time_grow _ (by omega) e2
  have hp : pixel_to_point (1, 1) (0, 0) ⟨3, 0⟩ ⟨3, 0⟩ = ⟨3, 0⟩ := by
    norm_num [pixel_to_point, lerp]
  have hpix : renderPixel (1, 1) (0, 0) ⟨3, 0⟩ ⟨3, 0⟩ = 254 := by
    unfold renderPixel
    rw [hp, e255]
  have hr : render [7] (1, 1) ⟨3, 0⟩ ⟨3, 0⟩ = some [254] := by
    rw [render_of_length_eq 1 1 ⟨3, 0⟩ ⟨3, 0⟩ [7] rfl]
    simp [rowUpdate, List.range_succ, hpix]
    exact hpix
  exact ⟨hr, (render_pixel_value 1 1 0 0 ⟨3, 0⟩ ⟨3, 0⟩ [7] [254] hr
    (by decide) (by decide)).1⟩

/-- C7: `render` demands `buffer.length = width * height`: with equal lengths
the assertion passes (the call returns a buffer) and every written index
`y*width + x` is in range; with different lengths the call is a fatal
assertion failure (modelled `none`), not a recoverable error. -/
theorem render_length_assertion (w h : Nat) (upper_left lower_right : Complex)
    (buf : List Nat) :
    (buf.length = w * h →
      ∃ out, render buf (w, h) upper_left lower_right = some out ∧
        out.length = w * h) ∧
    (buf.length ≠ w * h → render buf (w, h) upper_left lower_right = none) ∧
    (∀ y x, y < h → x < w → y * w + x < w * h) := by
  refine ⟨?_, render_of_length_ne w h upper_left lower_right buf,
    fun y x hy hx => pixelIndex_lt w h x y hx hy⟩
  intro hlen
  refine ⟨_, render_of_length_eq w h upper_left lower_right buf hlen, ?_⟩
  rw [rowsFold_length]
  exact hlen

/-- Witness for C7: a matching buffer renders, a mismatched one hits the
assertion. -/
theorem render_length_assertion_witness :
    (∃ out, render [5, 6] (1, 2) ⟨0, 0⟩ ⟨1, 1⟩ = some out ∧ out.length = 1 * 2) ∧
    render [5] (1, 2) ⟨0, 0⟩ ⟨1, 1⟩ = none :=
  ⟨(render_length_assertion 1 2 ⟨0, 0⟩ ⟨1, 1⟩ [5, 6]).1 (by decide),
   (render_length_assertion 1 2 ⟨0, 0⟩ ⟨1, 1⟩ [5]).2.1 (by decide)⟩

/-- C8: rendering is deterministic: two successful `render` calls with the
same bounds and viewport, on any two buffers of the required length, produce
identical buffer contents. -/
theorem render_deterministic (w h : Nat) (upper_left lower_right : Complex)
    (buf1 buf2 out1 out2 : List Nat)
    (h1 : buf1.length = w * h) (h2 : buf2.length = w * h)
    (hr1 : render buf1 (w, h) upper_left lower_right = some out1)
    (hr2 : render buf2 (w, h) upper_left lower_right = some out2) :
    out1 = out2 := by
  have hl1 : out1.length = w * h :=
    render_out_length w h upper_left lower_right buf1 out1 hr1
  have hl2 : out2.length = w * h :=
    render_out_length w h upper_left lower_right buf2 out2 hr2
  apply List.ext_getElem?
  intro i
  by_cases hi : i < w * h
  · have hw : 0 < w := by
      rcases Nat.eq_zero_or_pos w with rfl | hw
      · exfalso; omega
      · exact hw
    have hxw : i % w < w := Nat.mod_lt i hw
    have hyh : i / w < h := Nat.div_lt_of_lt_mul hi
    have hdecomp : (i / w) * w + i % w = i := by
      rw [Nat.mul_comm]; exact Nat.div_add_mod i w
    rw [← hdecomp,
      render_out_getElem? w h (i % w) (i / w) upper_left lower_right buf1 out1 hr1
        hxw hyh,
      render_out_getElem? w h (i % w) (i / w) upper_left lower_right buf2 out2 hr2
        hxw hyh]
  · rw [List.getElem?_eq_none (by omega), List.getElem?_eq_none (by omega)]

/-- Witness for C8: two 1×1 renders from different initial buffers agree. -/
theorem render_deterministic_witness :
    render [7] (1, 1) ⟨3, 0⟩ ⟨3, 0⟩ = some [254] ∧
    render [9] (1, 1) ⟨3, 0⟩ ⟨3, 0⟩ = some [254] ∧ ([254] : List Nat) = [254] := by
  have e2 : escape_time ⟨3, 0⟩ 2 = some 1 := by
    norm_num [escape_time, escapeAux, Complex.norm_sqr, Complex.mul_def, Complex.add_def]
  have e255 : escape_time ⟨3, 0⟩ 255 = some 1 := escape_time_grow _ (by omega) e2
  have hp : pixel_to_point (1, 1) (0, 0) ⟨3, 0⟩ ⟨3, 0⟩ = ⟨3, 0⟩ := by
    norm_num [pixel_to_point, lerp]
  have hpix : renderPixel (1, 1) (0, 0) ⟨3, 0⟩ ⟨3, 0⟩ = 254 := by
    unfold renderPixel
    rw [hp, e255]
  have hr1 : render [7] (1, 1) ⟨3, 0⟩ ⟨3, 0⟩ = some [254] := by
    rw [render_of_length_eq 1 1 ⟨3, 0⟩ ⟨3, 0⟩ [7] rfl]
    simp [rowUpdate, List.range_succ, hpix]
    exact hpix
  have hr2 : render [9] (1, 1) ⟨3, 0⟩ ⟨3, 0⟩ = some [254] := by
    rw [render_of_length_eq 1 1 ⟨3, 0⟩ ⟨3, 0⟩ [9] rfl]
    simp [rowUpdate, List.range_succ, hpix]
    exact hpix
  exact ⟨hr1, hr2,
    render_deterministic 1 1 ⟨3, 0⟩ ⟨3, 0⟩ [7] [9] [254] [254] rfl rfl hr1 hr2⟩

/-- C4: for every input string `s` and (ASCII) separator, `parse_pair` fails
(`some none`, no panic) when the separator does not occur in `s`; otherwise it
splits `s` at the first occurrence of the separator (`sep ∉ l` makes the split
the first one) and succeeds exactly when the left substring and the entire
right substring each parse, so trailing garbage after the right portion gives
failure. -/
theorem parse_pair_characterization {T : Type} (fromStr : List Char → Option T)
    (s : List Char) (sep : Char) (hsep : sep.toNat < 128) :
    (sep ∉ s → parse_pair fromStr s sep = some none) ∧
    (∀ l rest, s = l ++ sep :: rest → sep ∉ l →
      parse_pair fromStr s sep =
        some (match fromStr l, fromStr rest with
              | some a, some b => some (a, b)
              | _, _ => none)) := by
  refine ⟨parse_pair_of_not_mem fromStr s sep, ?_⟩
  intro l rest hs hl
  rw [hs]
  exact parse_pair_split fromStr l rest sep (utf8Len_ascii sep hsep) hl

/-- Witness for C4: `"10,20xy"` is rejected (trailing garbage), `"10,20"`
parses as `(10, 20)`, with the all-digit parser `digitsToNat`. -/
theorem parse_pair_characterization_witness :
    parse_pair digitsToNat "10,20xy".toList ',' = some none ∧
    parse_pair digitsToNat "10,20".toList ',' = some (some (10, 20)) := by
  constructor
  · have h := (parse_pair_characterization digitsToNat "10,20xy".toList ','
      (by decide)).2 ['1', '0'] ['2', '0', 'x', 'y'] (by decide) (by decide)
    rw [h]
    decide
  · have h := (parse_pair_characterization digitsToNat "10,20".toList ','
      (by decide)).2 ['1', '0'] ['2', '0'] (by decide) (by decide)
    rw [h]
    decide

/-- C10: for every string and every single-byte (ASCII) separator,
`parse_pair` is total and never panics (the outer `Option` is always `some`):
when the separator search returns byte index `idx`, that index is the byte
length of the prefix before the separator, `idx + 1` is a character boundary
(the byte length of a character prefix of `s`), and both slices are
well-defined. -/
theorem parse_pair_no_panic {T : Type} (fromStr : List Char → Option T)
    (s : List Char) (sep : Char) (hsep : sep.toNat < 128) :
    (∃ r, parse_pair fromStr s sep = some r) ∧
    (∀ idx, findSep s sep = some idx →
      ∃ l rest, s = l ++ sep :: rest ∧ idx = byteLen l ∧
        idx + 1 = byteLen (l ++ [sep]) ∧
        byteTake s idx = some l ∧ byteDrop s (idx + 1) = some rest) := by
  have h1 : utf8Len sep = 1 := utf8Len_ascii sep hsep
  have hslice : ∀ idx, findSep s sep = some idx →
      ∃ l rest, s = l ++ sep :: rest ∧ idx = byteLen l ∧
        idx + 1 = byteLen (l ++ [sep]) ∧
        byteTake s idx = some l ∧ byteDrop s (idx + 1) = some rest := by
    intro idx hf
    obtain ⟨l, rest, hs, hl, hidx⟩ := findSep_some_decomp sep s idx hf
    subst hidx
    refine ⟨l, rest, hs, rfl, ?_, ?_, ?_⟩
    · rw [byteLen_append, byteLen_cons, h1]
      rfl
    · rw [hs]; exact byteTake_append l (sep :: rest)
    · rw [hs]; exact byteDrop_append l rest sep h1
  refine ⟨?_, hslice⟩
  rcases hf : findSep s sep with - | idx
  · exact ⟨none, by simp [parse_pair, hf]⟩
  · obtain ⟨l, rest, hs, -, -, htake, hdrop⟩ := hslice idx hf
    exact ⟨(match fromStr l, fromStr rest with
            | some a, some b => some (a, b)
            | _, _ => none),
      by simp [parse_pair, hf, htake, hdrop]⟩

/-- Witness for C10: the float-pair example separator `'x'` in `"0.5x1.5"`. -/
theorem parse_pair_no_panic_witness :
    ∃ r, parse_pair digitsToNat "0.5x1.5".toList 'x' = some r :=
  (parse_pair_no_panic digitsToNat "0.5x1.5".toList 'x' (by decide)).1

end Mandelbrot
